import Mathlib

/-!
Verification of the voice-command product parser of the TECHY-CRACKS repository
(`src/components/VoiceProductInput.tsx`, functions `parseProductFromText` and
`detectCategory`).

The parser lower-cases the utterance and tries three JavaScript regular
expressions in order; on the first match it destructures the four capture
groups into quantity / unit / product name / price, infers a category from a
static keyword lexicon, and returns the record; if no pattern matches it
returns `null`.

We embed the three concrete regexes with a small fueled backtracking matcher
over `List Char` that follows JavaScript `String.prototype.match` semantics:
the match is attempted at every start position from the left, alternatives are
tried left to right, greedy quantifiers prefer to consume, lazy quantifiers
prefer not to, and capture groups record the consumed slice.  The character
classes `\d`, `\s` and `.` are the exact JavaScript classes.  JavaScript
`toLowerCase` is modelled by `Char.toLower` (they agree on the ASCII range,
which covers the pattern alphabets; the patterns themselves only contain
lower-case literals so the `i` flag is irrelevant after lower-casing).
-/

/-- JavaScript `\d`: the ASCII decimal digits. -/
def isJsDigit (c : Char) : Bool :=
  48 ≤ c.toNat && c.toNat ≤ 57

/-- JavaScript `\s` (which for these patterns coincides with the white space
set used by `String.prototype.trim`): tab, line feed, vertical tab, form feed,
carriage return, space, no-break space, ogham space mark, the `U+2000`–`U+200A`
spaces, line separator, paragraph separator, narrow no-break space, medium
mathematical space, ideographic space and the byte order mark. -/
def isJsSpace (c : Char) : Bool :=
  c.toNat == 9 || c.toNat == 10 || c.toNat == 11 || c.toNat == 12 ||
  c.toNat == 13 || c.toNat == 32 || c.toNat == 160 || c.toNat == 5760 ||
  (8192 ≤ c.toNat && c.toNat ≤ 8202) || c.toNat == 8232 || c.toNat == 8233 ||
  c.toNat == 8239 || c.toNat == 8287 || c.toNat == 12288 || c.toNat == 65279

/-- JavaScript `.` without the `s` flag: any character except the four line
terminators. -/
def isJsDot (c : Char) : Bool :=
  !(c.toNat == 10 || c.toNat == 13 || c.toNat == 8232 || c.toNat == 8233)

/-- The three character classes appearing in the parser's patterns. -/
inductive ClsTag where
  | digit
  | space
  | dot
deriving DecidableEq, Repr

/-- Interpretation of a character class. -/
def clsFun : ClsTag → Char → Bool
  | .digit => isJsDigit
  | .space => isJsSpace
  | .dot => isJsDot

/-- Abstract syntax of the regular expressions used by the parser.
Alternation is ordered (left alternative preferred), `optG`/`starG` are
greedy, `starL` is lazy, and `grp i r` is the capturing group number `i`. -/
inductive RE where
  | eps
  | chr (c : Char)
  | cls (t : ClsTag)
  | cat (r1 r2 : RE)
  | alt (r1 r2 : RE)
  | optG (r : RE)
  | starG (r : RE)
  | starL (r : RE)
  | grp (i : Nat) (r : RE)
deriving DecidableEq, Repr

/-- Capture environment: group number paired with the consumed slice. -/
abbrev Caps := List (Nat × List Char)

/-- Fueled backtracking matcher in continuation-passing style, mirroring the
behaviour of a JavaScript regex engine on these patterns: the continuation `k`
receives the remaining input and the captures accumulated so far, and the
whole call succeeds iff some branch explored in engine order makes `k`
succeed.  Star bodies that consume nothing do not iterate (the JavaScript
engine's empty-loop check).  Fuel only bounds the recursion depth. -/
def matchR : Nat → RE → List Char → Caps → (List Char → Caps → Option Caps) → Option Caps
  | 0, _, _, _, _ => none
  | _ + 1, .eps, rest, caps, k => k rest caps
  | _ + 1, .chr c, rest, caps, k =>
    match rest with
    | [] => none
    | c2 :: rest2 => if c2 = c then k rest2 caps else none
  | _ + 1, .cls t, rest, caps, k =>
    match rest with
    | [] => none
    | c2 :: rest2 => if clsFun t c2 then k rest2 caps else none
  | fuel + 1, .cat r1 r2, rest, caps, k =>
    matchR fuel r1 rest caps (fun rest2 caps2 => matchR fuel r2 rest2 caps2 k)
  | fuel + 1, .alt r1 r2, rest, caps, k =>
    match matchR fuel r1 rest caps k with
    | some res => some res
    | none => matchR fuel r2 rest caps k
  | fuel + 1, .optG r, rest, caps, k =>
    match matchR fuel r rest caps k with
    | some res => some res
    | none => k rest caps
  | fuel + 1, .starG r, rest, caps, k =>
    match matchR fuel r rest caps (fun rest2 caps2 =>
        if rest2.length = rest.length then none
        else matchR fuel (.starG r) rest2 caps2 k) with
    | some res => some res
    | none => k rest caps
  | fuel + 1, .starL r, rest, caps, k =>
    match k rest caps with
    | some res => some res
    | none =>
      matchR fuel r rest caps (fun rest2 caps2 =>
        if rest2.length = rest.length then none
        else matchR fuel (.starL r) rest2 caps2 k)
  | fuel + 1, .grp i r, rest, caps, k =>
    matchR fuel r rest caps (fun rest2 caps2 =>
      k rest2 ((i, rest.take (rest.length - rest2.length)) :: caps2))

/-- JavaScript `String.prototype.match` without the `g` flag attempts the
pattern at each start position from the left and returns the first success:
we try the whole input, then each successively shorter suffix. -/
def execSuffixes (fuel : Nat) (re : RE) : List Char → Option Caps
  | [] => matchR fuel re [] [] (fun _ caps => some caps)
  | c :: rs =>
    match matchR fuel re (c :: rs) [] (fun _ caps => some caps) with
    | some caps => some caps
    | none => execSuffixes fuel re rs

/-- Match a pattern against an input, with ample fuel. -/
def reMatch (re : RE) (s : List Char) : Option Caps :=
  execSuffixes (s.length + 1000) re s

/-- Retrieve the slice captured by group `i` (groups close exactly once on a
successful path, so the first entry is the capture). -/
def lookupCap : Caps → Nat → Option (List Char)
  | [], _ => none
  | (j, w) :: rest, i => if j = i then some w else lookupCap rest i

/-- A literal word, as a sequence of single-character nodes. -/
def catList : List RE → RE
  | [] => .eps
  | r :: rs => .cat r (catList rs)

/-- Literal string. -/
def strR (s : String) : RE :=
  catList (s.data.map RE.chr)

/-- Ordered alternation of a non-empty list. -/
def altList : List RE → RE
  | [] => .eps
  | [r] => r
  | r :: rs => .alt r (altList rs)

/-- `\s+` -/
def sPlus : RE := .cat (.cls .space) (.starG (.cls .space))

/-- `\s*` -/
def sStar : RE := .starG (.cls .space)

/-- `\d+` -/
def dPlus : RE := .cat (.cls .digit) (.starG (.cls .digit))

/-- `\d+(?:\.\d+)?` -/
def numRE : RE := .cat dPlus (.optG (.cat (.chr '.') dPlus))

/-- `(?:add\s+)?` -/
def addOpt : RE := .optG (.cat (strR "add") sPlus)

/-- `(kg|grams?|liter|litre|piece|dozen|box|bag|packet)` without the group. -/
def unitRE : RE :=
  altList [strR "kg", .cat (strR "gram") (.optG (.chr 's')), strR "liter",
    strR "litre", strR "piece", strR "dozen", strR "box", strR "bag",
    strR "packet"]

/-- `(?:price\s+|for\s+|at\s+|rupees?\s*)?` -/
def priceWordOpt : RE :=
  .optG (altList [.cat (strR "price") sPlus, .cat (strR "for") sPlus,
    .cat (strR "at") sPlus, .cat (strR "rupee") (.cat (.optG (.chr 's')) sStar)])

/-- `.+?` -/
def dotPlusLazy : RE := .cat (.cls .dot) (.starL (.cls .dot))

/-- `(?:per\s+)?` -/
def perOpt : RE := .optG (.cat (strR "per") sPlus)

/-- Pattern 1 of the source:
`/(?:add\s+)?(\d+(?:\.\d+)?)\s*(kg|grams?|liter|litre|piece|dozen|box|bag|packet)\s+(.+?)\s+(?:price\s+|for\s+|at\s+|rupees?\s*)?(\d+)/i` -/
def pattern1 : RE :=
  catList [addOpt, .grp 1 numRE, sStar, .grp 2 unitRE, sPlus,
    .grp 3 dotPlusLazy, sPlus, priceWordOpt, .grp 4 dPlus]

/-- Pattern 2 of the source:
`/(?:add\s+)?(.+?)\s+(\d+(?:\.\d+)?)\s*(kg|grams?|liter|litre|piece|dozen|box|bag|packet)\s+(?:price\s+|for\s+|at\s+|rupees?\s*)?(\d+)/i` -/
def pattern2 : RE :=
  catList [addOpt, .grp 1 dotPlusLazy, sPlus, .grp 2 numRE, sStar,
    .grp 3 unitRE, sPlus, priceWordOpt, .grp 4 dPlus]

/-- Pattern 3 of the source:
`/(?:add\s+)?(.+?)\s+(?:price\s+|for\s+|at\s+|rupees?\s*)?(\d+)\s+(?:per\s+)?(\d+(?:\.\d+)?)\s*(kg|grams?|liter|litre|piece|dozen|box|bag|packet)/i` -/
def pattern3 : RE :=
  catList [addOpt, .grp 1 dotPlusLazy, sPlus, priceWordOpt, .grp 2 dPlus,
    sPlus, perOpt, .grp 3 numRE, sStar, .grp 4 unitRE]

/-- The `ProductData` record built by the parser. -/
structure ProductData where
  name : String
  price : String
  quantity : String
  unit : String
  category : String
deriving DecidableEq, Repr

/-- JavaScript `String.prototype.includes`: substring containment. -/
def jsIncludes (hay sub : List Char) : Bool :=
  decide (sub <:+: hay)

/-- The category lexicon of `detectCategory`, in declaration order. -/
def categories : List (String × List String) :=
  [("Vegetables", ["tomato", "potato", "onion", "carrot", "cabbage",
      "spinach", "lettuce", "cucumber", "pepper", "brinjal", "okra"]),
   ("Fruits", ["apple", "banana", "orange", "mango", "grape", "strawberry",
      "watermelon", "pineapple"]),
   ("Grains", ["rice", "wheat", "barley", "corn", "maize", "millet",
      "quinoa"]),
   ("Dairy", ["milk", "cheese", "butter", "yogurt", "paneer", "cream"]),
   ("Pulses", ["dal", "lentil", "chickpea", "bean", "peas"]),
   ("Spices", ["turmeric", "chili", "cumin", "coriander", "garam masala",
      "pepper"]),
   ("Crafts", ["handicraft", "pottery", "jewelry", "textile", "painting",
      "decoration"]),
   ("General", ["soap", "detergent", "oil", "sugar", "salt", "tea",
      "coffee"])]

/-- The `for (const [category, items] of Object.entries(categories))` loop of
`detectCategory`: return the first category one of whose keywords occurs in
the lower-cased name, else `"Other"`. -/
def firstCategory : List (String × List String) → List Char → String
  | [], _ => "Other"
  | (cat, items) :: rest, lowerName =>
    if items.any (fun item => jsIncludes lowerName item.data) then cat
    else firstCategory rest lowerName

/-- `detectCategory` of the source. -/
def detectCategory (productName : String) : String :=
  firstCategory categories (productName.data.map Char.toLower)

/-- JavaScript `String.prototype.trim`. -/
def trimChars (l : List Char) : List Char :=
  ((l.dropWhile isJsSpace).reverse.dropWhile isJsSpace).reverse

/-- Build the result record from the captures of pattern 1
(`[, quantity, unit, name, price] = match`). -/
def mkResult1 (m : Caps) : ProductData :=
  let quantity := (lookupCap m 1).getD []
  let unit := (lookupCap m 2).getD []
  let name := (lookupCap m 3).getD []
  let price := (lookupCap m 4).getD []
  { name := ⟨trimChars name⟩, price := ⟨price⟩, quantity := ⟨quantity⟩,
    unit := ⟨unit⟩, category := detectCategory ⟨name⟩ }

/-- Build the result record from the captures of pattern 2
(`[, name, quantity, unit, price] = match`). -/
def mkResult2 (m : Caps) : ProductData :=
  let name := (lookupCap m 1).getD []
  let quantity := (lookupCap m 2).getD []
  let unit := (lookupCap m 3).getD []
  let price := (lookupCap m 4).getD []
  { name := ⟨trimChars name⟩, price := ⟨price⟩, quantity := ⟨quantity⟩,
    unit := ⟨unit⟩, category := detectCategory ⟨name⟩ }

/-- Build the result record from the captures of pattern 3
(`[, name, price, quantity, unit] = match`). -/
def mkResult3 (m : Caps) : ProductData :=
  let name := (lookupCap m 1).getD []
  let price := (lookupCap m 2).getD []
  let quantity := (lookupCap m 3).getD []
  let unit := (lookupCap m 4).getD []
  { name := ⟨trimChars name⟩, price := ⟨price⟩, quantity := ⟨quantity⟩,
    unit := ⟨unit⟩, category := detectCategory ⟨name⟩ }

/-- The lower-cased input (`const lowerText = text.toLowerCase()`). -/
def lowerData (text : String) : List Char :=
  text.data.map Char.toLower

/-- The core of the parser, operating on the already lower-cased text: try
the three patterns in order and build the record from the first match. -/
def parseCore (lowerText : List Char) : Option ProductData :=
  match reMatch pattern1 lowerText with
  | some m => some (mkResult1 m)
  | none =>
    match reMatch pattern2 lowerText with
    | some m => some (mkResult2 m)
    | none =>
      match reMatch pattern3 lowerText with
      | some m => some (mkResult3 m)
      | none => none

/-- `parseProductFromText` of the source. -/
def parseProductFromText (text : String) : Option ProductData :=
  parseCore (lowerData text)

/-! ### Semantics of the regular expressions

`Lang re w` means the word `w` belongs to the language of `re`.  The
backtracking matcher is proved sound with respect to this semantics: every
successful run consumes a word of the language and every capture it records
is a slice of the input belonging to the language of its group's body. -/

inductive Lang : RE → List Char → Prop where
  | eps : Lang .eps []
  | chr (c : Char) : Lang (.chr c) [c]
  | cls (t : ClsTag) (c : Char) (h : clsFun t c = true) : Lang (.cls t) [c]
  | catI {r1 r2 : RE} {w1 w2 : List Char} (h1 : Lang r1 w1) (h2 : Lang r2 w2) :
      Lang (.cat r1 r2) (w1 ++ w2)
  | altL {r1 r2 : RE} {w : List Char} (h : Lang r1 w) : Lang (.alt r1 r2) w
  | altR {r1 r2 : RE} {w : List Char} (h : Lang r2 w) : Lang (.alt r1 r2) w
  | optNone {r : RE} : Lang (.optG r) []
  | optSome {r : RE} {w : List Char} (h : Lang r w) : Lang (.optG r) w
  | starGNil {r : RE} : Lang (.starG r) []
  | starGCons {r : RE} {w1 w2 : List Char} (h1 : Lang r w1)
      (h2 : Lang (.starG r) w2) : Lang (.starG r) (w1 ++ w2)
  | starLNil {r : RE} : Lang (.starL r) []
  | starLCons {r : RE} {w1 w2 : List Char} (h1 : Lang r w1)
      (h2 : Lang (.starL r) w2) : Lang (.starL r) (w1 ++ w2)
  | grpI {r : RE} {w : List Char} {i : Nat} (h : Lang r w) : Lang (.grp i r) w

/-- All capture groups occurring in a pattern, with their bodies. -/
def groupsOf : RE → List (Nat × RE)
  | .eps => []
  | .chr _ => []
  | .cls _ => []
  | .cat r1 r2 => groupsOf r1 ++ groupsOf r2
  | .alt r1 r2 => groupsOf r1 ++ groupsOf r2
  | .optG r => groupsOf r
  | .starG r => groupsOf r
  | .starL r => groupsOf r
  | .grp i r => (i, r) :: groupsOf r

/-- The groups that participate in every successful match: groups under an
optional or starred node may be skipped, a group under an alternation only
participates for sure when it occurs in both branches. -/
def mandGroups : RE → List Nat
  | .eps => []
  | .chr _ => []
  | .cls _ => []
  | .cat r1 r2 => mandGroups r1 ++ mandGroups r2
  | .alt r1 r2 => (mandGroups r1).filter (fun i => decide (i ∈ mandGroups r2))
  | .optG _ => []
  | .starG _ => []
  | .starL _ => []
  | .grp i r => i :: mandGroups r

lemma inf_of_suffix {a b : List Char} (h : a <:+ b) : a <:+: b := by
  obtain ⟨t, rfl⟩ := h
  exact ⟨t, [], by simp⟩

lemma inf_of_pre {a b : List Char} (h : a <+: b) : a <:+: b := by
  obtain ⟨t, rfl⟩ := h
  exact ⟨[], t, by simp⟩

lemma inf_trans {a b c : List Char} (h1 : a <:+: b) (h2 : b <:+: c) :
    a <:+: c := by
  obtain ⟨s1, t1, rfl⟩ := h1
  obtain ⟨s2, t2, rfl⟩ := h2
  exact ⟨s2 ++ s1, t1 ++ t2, by simp⟩

/-- Soundness of the backtracking matcher: a successful run of `matchR` on
`rest` splits `rest` as `w ++ rest2` with `w` in the language of `re`,
extends the capture environment with entries `news` whose contents are
infixes of `rest` in the language of the corresponding group body — with an
entry guaranteed for every mandatory group — and succeeds through the
continuation at `rest2`. -/
theorem matchR_sound :
    ∀ (fuel : Nat) (re : RE) (rest : List Char) (caps : Caps)
      (k : List Char → Caps → Option Caps) (res : Caps),
      matchR fuel re rest caps k = some res →
      ∃ w rest2 news,
        rest = w ++ rest2 ∧ Lang re w ∧
        (∀ e ∈ news, (∃ r, (e.1, r) ∈ groupsOf re ∧ Lang r e.2) ∧ e.2 <:+: rest) ∧
        (∀ i ∈ mandGroups re, ∃ v, (i, v) ∈ news) ∧
        k rest2 (news ++ caps) = some res := by
  intro fuel
  induction fuel with
  | zero => intro re rest caps k res h; simp [matchR] at h
  | succ f ih =>
    intro re rest caps k res h
    cases re with
    | eps =>
      exact ⟨[], rest, [], rfl, Lang.eps, by simp, by simp [mandGroups],
        by simpa [matchR] using h⟩
    | chr c =>
      simp only [matchR] at h
      cases rest with
      | nil => simp at h
      | cons c2 rest2 =>
        by_cases hc : c2 = c
        · subst hc
          simp only [if_pos rfl] at h
          exact ⟨[c2], rest2, [], rfl, Lang.chr c2, by simp,
            by simp [mandGroups], by simpa using h⟩
        · simp [hc] at h
    | cls t =>
      simp only [matchR] at h
      cases rest with
      | nil => simp at h
      | cons c2 rest2 =>
        by_cases hc : clsFun t c2 = true
        · simp only [if_pos hc] at h
          exact ⟨[c2], rest2, [], rfl, Lang.cls t c2 hc, by simp,
            by simp [mandGroups], by simpa using h⟩
        · simp [hc] at h
    | cat r1 r2 =>
      simp only [matchR] at h
      obtain ⟨w1, rest1, news1, heq1, hl1, hp1, hm1, hk1⟩ :=
        ih r1 rest caps _ res h
      obtain ⟨w2, rest2, news2, heq2, hl2, hp2, hm2, hk2⟩ :=
        ih r2 rest1 (news1 ++ caps) k res hk1
      refine ⟨w1 ++ w2, rest2, news2 ++ news1, ?_, Lang.catI hl1 hl2, ?_, ?_, ?_⟩
      · rw [heq1, heq2, List.append_assoc]
      · intro e he
        rcases List.mem_append.mp he with h2 | h1
        · obtain ⟨⟨r, hr, hlr⟩, hinf⟩ := hp2 e h2
          refine ⟨⟨r, by simp [groupsOf, hr], hlr⟩, ?_⟩
          exact inf_trans hinf (inf_of_suffix ⟨w1, heq1.symm⟩)
        · obtain ⟨⟨r, hr, hlr⟩, hinf⟩ := hp1 e h1
          exact ⟨⟨r, by simp [groupsOf, hr], hlr⟩, hinf⟩
      · intro i hi
        rcases List.mem_append.mp (by simpa [mandGroups] using hi) with h1 | h2
        · obtain ⟨v, hv⟩ := hm1 i h1
          exact ⟨v, List.mem_append.mpr (Or.inr hv)⟩
        · obtain ⟨v, hv⟩ := hm2 i h2
          exact ⟨v, List.mem_append.mpr (Or.inl hv)⟩
      · rw [List.append_assoc]
        exact hk2
    | alt r1 r2 =>
      simp only [matchR] at h
      cases hm : matchR f r1 rest caps k with
      | some res1 =>
        rw [hm] at h
        simp only [Option.some.injEq] at h
        subst h
        obtain ⟨w, rest2, news, heq, hl, hp, hmand, hk⟩ :=
          ih r1 rest caps k res1 hm
        refine ⟨w, rest2, news, heq, Lang.altL hl, ?_, ?_, hk⟩
        · intro e he
          obtain ⟨⟨r, hr, hlr⟩, hinf⟩ := hp e he
          exact ⟨⟨r, by simp [groupsOf, hr], hlr⟩, hinf⟩
        · intro i hi
          simp only [mandGroups, List.mem_filter] at hi
          exact hmand i hi.1
      | none =>
        rw [hm] at h
        obtain ⟨w, rest2, news, heq, hl, hp, hmand, hk⟩ :=
          ih r2 rest caps k res h
        refine ⟨w, rest2, news, heq, Lang.altR hl, ?_, ?_, hk⟩
        · intro e he
          obtain ⟨⟨r, hr, hlr⟩, hinf⟩ := hp e he
          exact ⟨⟨r, by simp [groupsOf, hr], hlr⟩, hinf⟩
        · intro i hi
          simp only [mandGroups, List.mem_filter, decide_eq_true_eq] at hi
          exact hmand i hi.2
    | optG r =>
      simp only [matchR] at h
      cases hm : matchR f r rest caps k with
      | some res1 =>
        rw [hm] at h
        simp only [Option.some.injEq] at h
        subst h
        obtain ⟨w, rest2, news, heq, hl, hp, hmand, hk⟩ :=
          ih r rest caps k res1 hm
        exact ⟨w, rest2, news, heq, Lang.optSome hl, hp, by simp [mandGroups], hk⟩
      | none =>
        rw [hm] at h
        exact ⟨[], rest, [], rfl, Lang.optNone, by simp, by simp [mandGroups],
          by simpa using h⟩
    | starG r =>
      simp only [matchR] at h
      cases hm : matchR f r rest caps
          (fun rest2 caps2 =>
            if rest2.length = rest.length then none
            else matchR f (.starG r) rest2 caps2 k) with
      | some res1 =>
        rw [hm] at h
        simp only [Option.some.injEq] at h
        subst h
        obtain ⟨w1, rest1, news1, heq1, hl1, hp1, hm1, hk1⟩ :=
          ih r rest caps _ res1 hm
        by_cases hlen : rest1.length = rest.length
        · simp [hlen] at hk1
        · rw [if_neg hlen] at hk1
          obtain ⟨w2, rest2, news2, heq2, hl2, hp2, hm2, hk2⟩ :=
            ih (.starG r) rest1 (news1 ++ caps) k res1 hk1
          refine ⟨w1 ++ w2, rest2, news2 ++ news1, ?_,
            Lang.starGCons hl1 hl2, ?_, ?_, ?_⟩
          · rw [heq1, heq2, List.append_assoc]
          · intro e he
            rcases List.mem_append.mp he with h2 | h1
            · obtain ⟨⟨r3, hr, hlr⟩, hinf⟩ := hp2 e h2
              refine ⟨⟨r3, by simpa [groupsOf] using hr, hlr⟩, ?_⟩
              exact inf_trans hinf (inf_of_suffix ⟨w1, heq1.symm⟩)
            · obtain ⟨⟨r3, hr, hlr⟩, hinf⟩ := hp1 e h1
              exact ⟨⟨r3, by simpa [groupsOf] using hr, hlr⟩, hinf⟩
          · simp [mandGroups]
          · rw [List.append_assoc]
            exact hk2
      | none =>
        rw [hm] at h
        exact ⟨[], rest, [], rfl, Lang.starGNil, by simp, by simp [mandGroups],
          by simpa using h⟩
    | starL r =>
      simp only [matchR] at h
      cases hk0 : k rest caps with
      | some res1 =>
        rw [hk0] at h
        simp only [Option.some.injEq] at h
        subst h
        exact ⟨[], rest, [], rfl, Lang.starLNil, by simp, by simp [mandGroups],
          by simpa using hk0⟩
      | none =>
        rw [hk0] at h
        obtain ⟨w1, rest1, news1, heq1, hl1, hp1, hm1, hk1⟩ :=
          ih r rest caps _ res h
        by_cases hlen : rest1.length = rest.length
        · simp [hlen] at hk1
        · rw [if_neg hlen] at hk1
          obtain ⟨w2, rest2, news2, heq2, hl2, hp2, hm2, hk2⟩ :=
            ih (.starL r) rest1 (news1 ++ caps) k res hk1
          refine ⟨w1 ++ w2, rest2, news2 ++ news1, ?_,
            Lang.starLCons hl1 hl2, ?_, ?_, ?_⟩
          · rw [heq1, heq2, List.append_assoc]
          · intro e he
            rcases List.mem_append.mp he with h2 | h1
            · obtain ⟨⟨r3, hr, hlr⟩, hinf⟩ := hp2 e h2
              refine ⟨⟨r3, by simpa [groupsOf] using hr, hlr⟩, ?_⟩
              exact inf_trans hinf (inf_of_suffix ⟨w1, heq1.symm⟩)
            · obtain ⟨⟨r3, hr, hlr⟩, hinf⟩ := hp1 e h1
              exact ⟨⟨r3, by simpa [groupsOf] using hr, hlr⟩, hinf⟩
          · simp [mandGroups]
          · rw [List.append_assoc]
            exact hk2
    | grp i r =>
      simp only [matchR] at h
      obtain ⟨w, rest2, news, heq, hl, hp, hmand, hk⟩ :=
        ih r rest caps _ res h
      have hlen : rest.length - rest2.length = w.length := by
        rw [heq]; simp
      have htake : rest.take (rest.length - rest2.length) = w := by
        rw [hlen, heq, List.take_left]
      rw [htake] at hk
      refine ⟨w, rest2, (i, w) :: news, heq, Lang.grpI hl, ?_, ?_, ?_⟩
      · intro e he
        rcases List.mem_cons.mp he with rfl | he2
        · exact ⟨⟨r, by simp [groupsOf], hl⟩, inf_of_pre ⟨rest2, heq.symm⟩⟩
        · obtain ⟨⟨r3, hr, hlr⟩, hinf⟩ := hp e he2
          exact ⟨⟨r3, by simp [groupsOf, hr], hlr⟩, hinf⟩
      · intro j hj
        rcases List.mem_cons.mp (by simpa [mandGroups] using hj) with rfl | hj2
        · exact ⟨w, List.mem_cons_self _ _⟩
        · obtain ⟨v, hv⟩ := hmand j hj2
          exact ⟨v, List.mem_cons_of_mem _ hv⟩
      · simpa using hk

/-- Soundness transported to `execSuffixes`: on success every capture entry
is an infix of the input whose content lies in the language of its group's
body, and every mandatory group is captured. -/
theorem execSuffixes_sound :
    ∀ (s : List Char) (fuel : Nat) (re : RE) (m : Caps),
      execSuffixes fuel re s = some m →
      (∀ e ∈ m, (∃ r, (e.1, r) ∈ groupsOf re ∧ Lang r e.2) ∧ e.2 <:+: s) ∧
      (∀ i ∈ mandGroups re, ∃ v, (i, v) ∈ m) := by
  intro s
  induction s with
  | nil =>
    intro fuel re m h
    simp only [execSuffixes] at h
    obtain ⟨w, rest2, news, heq, hl, hp, hmand, hk⟩ :=
      matchR_sound fuel re [] [] _ m h
    have hnews : news = m := by simpa using hk
    subst hnews
    exact ⟨hp, hmand⟩
  | cons c rs ih =>
    intro fuel re m h
    simp only [execSuffixes] at h
    cases hm0 : matchR fuel re (c :: rs) [] (fun _ caps => some caps) with
    | some caps =>
      rw [hm0] at h
      simp only [Option.some.injEq] at h
      subst h
      obtain ⟨w, rest2, news, heq, hl, hp, hmand, hk⟩ :=
        matchR_sound fuel re (c :: rs) [] _ caps hm0
      have hnews : news = caps := by simpa using hk
      subst hnews
      exact ⟨hp, hmand⟩
    | none =>
      rw [hm0] at h
      obtain ⟨hp, hmand⟩ := ih fuel re m h
      refine ⟨?_, hmand⟩
      intro e he
      obtain ⟨hr, hinf⟩ := hp e he
      exact ⟨hr, inf_trans hinf (inf_of_suffix ⟨[c], rfl⟩)⟩

/-- Soundness of `reMatch`. -/
theorem reMatch_sound {re : RE} {s : List Char} {m : Caps}
    (h : reMatch re s = some m) :
    (∀ e ∈ m, (∃ r, (e.1, r) ∈ groupsOf re ∧ Lang r e.2) ∧ e.2 <:+: s) ∧
    (∀ i ∈ mandGroups re, ∃ v, (i, v) ∈ m) :=
  execSuffixes_sound s _ re m h

lemma lookupCap_mem :
    ∀ (caps : Caps) (i : Nat) (w : List Char),
      lookupCap caps i = some w → (i, w) ∈ caps := by
  intro caps
  induction caps with
  | nil => intro i w h; simp [lookupCap] at h
  | cons e rest ih =>
    intro i w h
    obtain ⟨j, v⟩ := e
    simp only [lookupCap] at h
    split at h
    · next hji =>
      injection h with h2
      subst hji
      subst h2
      exact List.mem_cons_self _ _
    · next hji =>
      exact List.mem_cons_of_mem _ (ih i w h)

lemma mem_lookupCap :
    ∀ (caps : Caps) (i : Nat), (∃ w, (i, w) ∈ caps) →
      ∃ w, lookupCap caps i = some w := by
  intro caps
  induction caps with
  | nil => intro i h; simp at h
  | cons e rest ih =>
    intro i h
    obtain ⟨j, v⟩ := e
    by_cases hj : j = i
    · subst hj
      exact ⟨v, by simp [lookupCap]⟩
    · obtain ⟨w, hw⟩ := h
      rcases List.mem_cons.mp hw with heq | hmem
      · exact absurd (congrArg Prod.fst heq).symm hj
      · obtain ⟨w2, hw2⟩ := ih i ⟨w, hmem⟩
        exact ⟨w2, by simpa [lookupCap, hj] using hw2⟩

/-- If a mandatory group of a matched pattern is looked up, the capture is an
infix of the input lying in the language of some body of that group. -/
lemma capOfMand {re : RE} {s : List Char} {m : Caps}
    (h : reMatch re s = some m) {i : Nat} (hi : i ∈ mandGroups re) :
    ∃ w, lookupCap m i = some w ∧ w <:+: s ∧
      ∃ r, (i, r) ∈ groupsOf re ∧ Lang r w := by
  have hs := reMatch_sound h
  obtain ⟨v, hv⟩ := hs.2 i hi
  obtain ⟨w, hw⟩ := mem_lookupCap m i ⟨v, hv⟩
  obtain ⟨⟨r, hr, hlr⟩, hinf⟩ := hs.1 _ (lookupCap_mem m i w hw)
  exact ⟨w, hw, hinf, r, hr, hlr⟩

/-! ### Inversion lemmas for the language semantics -/

lemma lang_eps {w : List Char} (h : Lang .eps w) : w = [] := by
  cases h; rfl

lemma lang_chr {c : Char} {w : List Char} (h : Lang (.chr c) w) : w = [c] := by
  cases h; rfl

lemma lang_cls {t : ClsTag} {w : List Char} (h : Lang (.cls t) w) :
    ∃ c, w = [c] ∧ clsFun t c = true := by
  cases h with
  | cls t c hc => exact ⟨c, rfl, hc⟩

lemma lang_cat {r1 r2 : RE} {w : List Char} (h : Lang (.cat r1 r2) w) :
    ∃ w1 w2, w = w1 ++ w2 ∧ Lang r1 w1 ∧ Lang r2 w2 := by
  cases h with
  | catI h1 h2 => exact ⟨_, _, rfl, h1, h2⟩

lemma lang_alt {r1 r2 : RE} {w : List Char} (h : Lang (.alt r1 r2) w) :
    Lang r1 w ∨ Lang r2 w := by
  cases h with
  | altL h => exact Or.inl h
  | altR h => exact Or.inr h

lemma lang_opt {r : RE} {w : List Char} (h : Lang (.optG r) w) :
    w = [] ∨ Lang r w := by
  cases h with
  | optNone => exact Or.inl rfl
  | optSome h => exact Or.inr h

lemma lang_grp {i : Nat} {r : RE} {w : List Char} (h : Lang (.grp i r) w) :
    Lang r w := by
  cases h with
  | grpI h => exact h

/-- Every character of a word of a starred character class satisfies the
class. -/
lemma lang_star_cls :
    ∀ {re : RE} {w : List Char}, Lang re w → ∀ t : ClsTag,
      (re = .starG (.cls t) ∨ re = .starL (.cls t)) →
      ∀ c ∈ w, clsFun t c = true := by
  intro re w h
  induction h with
  | eps => intro t ht; rcases ht with h | h <;> simp at h
  | chr c => intro t ht; rcases ht with h | h <;> simp at h
  | cls t0 c hc => intro t ht; rcases ht with h | h <;> simp at h
  | catI h1 h2 ih1 ih2 => intro t ht; rcases ht with h | h <;> simp at h
  | altL h ih => intro t ht; rcases ht with h | h <;> simp at h
  | altR h ih => intro t ht; rcases ht with h | h <;> simp at h
  | optNone => intro t ht; rcases ht with h | h <;> simp at h
  | optSome h ih => intro t ht; rcases ht with h | h <;> simp at h
  | starGNil => intro t ht c hc; simp at hc
  | starGCons h1 h2 ih1 ih2 =>
    intro t ht c hc
    rcases ht with h | h
    · obtain rfl : _ = RE.cls t := by injection h
      obtain ⟨c1, rfl, hc1⟩ := lang_cls h1
      rcases List.mem_append.mp hc with hm | hm
      · rw [List.mem_singleton.mp hm]; exact hc1
      · exact ih2 t (Or.inl rfl) c hm
    · simp at h
  | starLNil => intro t ht c hc; simp at hc
  | starLCons h1 h2 ih1 ih2 =>
    intro t ht c hc
    rcases ht with h | h
    · simp at h
    · obtain rfl : _ = RE.cls t := by injection h
      obtain ⟨c1, rfl, hc1⟩ := lang_cls h1
      rcases List.mem_append.mp hc with hm | hm
      · rw [List.mem_singleton.mp hm]; exact hc1
      · exact ih2 t (Or.inr rfl) c hm
  | grpI h ih => intro t ht; rcases ht with h | h <;> simp at h

/-- A word of a literal is the literal. -/
lemma lang_catList_chr :
    ∀ (l : List Char) (w : List Char),
      Lang (catList (l.map RE.chr)) w → w = l := by
  intro l
  induction l with
  | nil => intro w h; simpa [catList] using lang_eps h
  | cons c cs ih =>
    intro w h
    simp only [List.map_cons, catList] at h
    obtain ⟨w1, w2, rfl, h1, h2⟩ := lang_cat h
    rw [lang_chr h1, ih w2 h2]
    rfl

lemma lang_strR {s : String} {w : List Char} (h : Lang (strR s) w) :
    w = s.data :=
  lang_catList_chr _ _ h

/-- A word of `\d+` is a non-empty digit string. -/
lemma lang_dPlus {w : List Char} (h : Lang dPlus w) :
    w ≠ [] ∧ ∀ c ∈ w, isJsDigit c = true := by
  obtain ⟨w1, w2, rfl, h1, h2⟩ := lang_cat h
  obtain ⟨c, rfl, hc⟩ := lang_cls h1
  refine ⟨by simp, ?_⟩
  intro c2 hc2
  rcases List.mem_append.mp hc2 with hm | hm
  · rw [List.mem_singleton.mp hm]
    simpa [clsFun] using hc
  · simpa [clsFun] using lang_star_cls h2 .digit (Or.inl rfl) c2 hm

/-- Decidable shape of a quantity capture, spelling out `\d+(\.\d+)?`:
a non-empty digit block, optionally followed by a dot and a non-empty digit
block. -/
def qtyShape (w : List Char) : Bool :=
  !(w.takeWhile isJsDigit).isEmpty &&
    (match w.dropWhile isJsDigit with
     | [] => true
     | c :: rest => c == '.' && !rest.isEmpty && rest.all isJsDigit)

lemma takeWhile_append_all {p : Char → Bool} :
    ∀ (xs ys : List Char), (∀ c ∈ xs, p c = true) →
      (xs ++ ys).takeWhile p = xs ++ ys.takeWhile p ∧
      (xs ++ ys).dropWhile p = ys.dropWhile p := by
  intro xs
  induction xs with
  | nil => intro ys h; simp
  | cons c cs ih =>
    intro ys h
    have hc : p c = true := h c (List.mem_cons_self _ _)
    have hcs := ih ys (fun c2 hc2 => h c2 (List.mem_cons_of_mem _ hc2))
    simp [List.takeWhile_cons, List.dropWhile_cons, hc, hcs.1, hcs.2]

/-- A word of `\d+(?:\.\d+)?` has the quantity shape. -/
lemma lang_numRE {w : List Char} (h : Lang numRE w) : qtyShape w = true := by
  obtain ⟨w1, w2, rfl, h1, h2⟩ := lang_cat h
  obtain ⟨hne, hdig⟩ := lang_dPlus h1
  have hsplit := takeWhile_append_all w1 w2 hdig
  rcases lang_opt h2 with rfl | h2'
  · simp only [qtyShape, hsplit.1, hsplit.2]
    simp [List.isEmpty_iff, hne]
  · obtain ⟨w3, w4, rfl, h3, h4⟩ := lang_cat h2'
    obtain rfl : w3 = ['.'] := lang_chr h3
    obtain ⟨hne4, hdig4⟩ := lang_dPlus h4
    have hdot : isJsDigit '.' = false := by decide
    have htk : (w1 ++ (['.'] ++ w4)).takeWhile isJsDigit = w1 := by
      rw [hsplit.1]
      simp [List.takeWhile_cons, hdot]
    have hdr : (w1 ++ (['.'] ++ w4)).dropWhile isJsDigit = '.' :: w4 := by
      rw [hsplit.2]
      simp [List.dropWhile_cons, hdot]
    simp only [qtyShape, htk, hdr]
    simp [List.isEmpty_iff, hne, hne4, List.all_eq_true]
    exact hdig4

/-- The ten possible unit captures. -/
lemma lang_unitRE {w : List Char} (h : Lang unitRE w) :
    (⟨w⟩ : String) ∈ (["kg", "gram", "grams", "liter", "litre", "piece",
      "dozen", "box", "bag", "packet"] : List String) := by
  have h2 : Lang (.alt (strR "kg") (.alt (.cat (strR "gram") (.optG (.chr 's')))
      (.alt (strR "liter") (.alt (strR "litre") (.alt (strR "piece")
      (.alt (strR "dozen") (.alt (strR "box") (.alt (strR "bag")
      (strR "packet"))))))))) w := h
  rcases lang_alt h2 with h3 | h2
  · rw [lang_strR h3]; decide
  rcases lang_alt h2 with h3 | h2
  · obtain ⟨w1, w2, rfl, hg, hs⟩ := lang_cat h3
    obtain rfl : w1 = ("gram" : String).data := lang_strR hg
    rcases lang_opt hs with rfl | hs'
    · decide
    · obtain rfl : w2 = ['s'] := lang_chr hs'
      decide
  rcases lang_alt h2 with h3 | h2
  · rw [lang_strR h3]; decide
  rcases lang_alt h2 with h3 | h2
  · rw [lang_strR h3]; decide
  rcases lang_alt h2 with h3 | h2
  · rw [lang_strR h3]; decide
  rcases lang_alt h2 with h3 | h2
  · rw [lang_strR h3]; decide
  rcases lang_alt h2 with h3 | h2
  · rw [lang_strR h3]; decide
  rcases lang_alt h2 with h3 | h3
  · rw [lang_strR h3]; decide
  · rw [lang_strR h3]; decide

/-! ### The group tables of the three patterns -/

lemma groupsOf_p1 :
    groupsOf pattern1 = [(1, numRE), (2, unitRE), (3, dotPlusLazy), (4, dPlus)] :=
  rfl

lemma groupsOf_p2 :
    groupsOf pattern2 = [(1, dotPlusLazy), (2, numRE), (3, unitRE), (4, dPlus)] :=
  rfl

lemma groupsOf_p3 :
    groupsOf pattern3 = [(1, dotPlusLazy), (2, dPlus), (3, numRE), (4, unitRE)] :=
  rfl

lemma mand_p1 : mandGroups pattern1 = [1, 2, 3, 4] := rfl

lemma mand_p2 : mandGroups pattern2 = [1, 2, 3, 4] := rfl

lemma mand_p3 : mandGroups pattern3 = [1, 2, 3, 4] := rfl

/-! ### Character-level facts about lower-casing -/

lemma toLower_space {c : Char} (h : isJsSpace c = true) :
    Char.toLower c = c := by
  have hn : ¬(c.toNat ≥ 65 ∧ c.toNat ≤ 90) := by
    simp only [isJsSpace, Bool.or_eq_true, Bool.and_eq_true, beq_iff_eq,
      decide_eq_true_eq] at h
    omega
  simp [Char.toLower, hn]

lemma digit_not_space {c : Char} (hd : isJsDigit c = true)
    (hs : isJsSpace c = true) : False := by
  simp only [isJsDigit, Bool.and_eq_true, decide_eq_true_eq] at hd
  simp only [isJsSpace, Bool.or_eq_true, Bool.and_eq_true, beq_iff_eq,
    decide_eq_true_eq] at hs
  omega

lemma toNat_ofNat_letter {n : Nat} (h1 : 97 ≤ n) (h2 : n ≤ 122) :
    (Char.ofNat n).toNat = n := by
  have hv : n.isValidChar := Or.inl (by omega)
  simp [Char.ofNat, hv, Char.ofNatAux, Char.toNat, UInt32.toNat,
    BitVec.toNat_ofNatLt]

lemma isJsSpace_toLower (c : Char) : isJsSpace (Char.toLower c) = isJsSpace c := by
  by_cases hup : c.toNat ≥ 65 ∧ c.toNat ≤ 90
  · have h1 : Char.toLower c = Char.ofNat (c.toNat + 32) := by
      simp [Char.toLower, hup]
    have h2 : (Char.ofNat (c.toNat + 32)).toNat = c.toNat + 32 :=
      toNat_ofNat_letter (by omega) (by omega)
    have hlow : isJsSpace (Char.ofNat (c.toNat + 32)) = false := by
      have : ¬(isJsSpace (Char.ofNat (c.toNat + 32)) = true) := by
        simp only [isJsSpace, Bool.or_eq_true, Bool.and_eq_true, beq_iff_eq,
          decide_eq_true_eq, h2]
        omega
      simpa using this
    have hc : isJsSpace c = false := by
      have : ¬(isJsSpace c = true) := by
        simp only [isJsSpace, Bool.or_eq_true, Bool.and_eq_true, beq_iff_eq,
          decide_eq_true_eq]
        omega
      simpa using this
    rw [h1, hlow, hc]
  · have h1 : Char.toLower c = c := by simp [Char.toLower, hup]
    rw [h1]

/-! ### Trimming and substring matching -/

lemma pre_of_rev_suffix {a u : List Char} (h : a <:+ u.reverse) :
    a.reverse <+: u := by
  have h2 : a.reverse.reverse <:+ u.reverse := by
    rw [List.reverse_reverse]
    exact h
  exact List.reverse_suffix.mp h2

/-- The trimmed string is an infix of the original. -/
lemma trim_inf (l : List Char) : trimChars l <:+: l := by
  have h1 : l.dropWhile isJsSpace <:+ l := List.dropWhile_suffix _
  have h2 : (l.dropWhile isJsSpace).reverse.dropWhile isJsSpace <:+
      (l.dropWhile isJsSpace).reverse := List.dropWhile_suffix _
  exact inf_trans (inf_of_pre (pre_of_rev_suffix h2)) (inf_of_suffix h1)

/-- An infix whose head does not satisfy `p` survives `dropWhile p`. -/
lemma inf_dropWhile {p : Char → Bool} {k : List Char} {c0 : Char}
    (hk : k.head? = some c0) (hc0 : p c0 = false) :
    ∀ l : List Char, k <:+: l → k <:+: l.dropWhile p := by
  intro l
  induction l with
  | nil =>
    intro h
    obtain ⟨a, b, hab⟩ := h
    have h1 := List.append_eq_nil.mp hab
    obtain ⟨-, h2⟩ := List.append_eq_nil.mp h1.1
    subst h2
    simp at hk
  | cons c ls ih =>
    intro h
    by_cases hpc : p c = true
    · rw [List.dropWhile_cons_of_pos hpc]
      apply ih
      obtain ⟨a, b, hab⟩ := h
      cases a with
      | nil =>
        cases k with
        | nil => simp at hk
        | cons k0 ks =>
          exfalso
          simp only [List.nil_append, List.cons_append, List.cons.injEq] at hab
          simp only [List.head?_cons, Option.some.injEq] at hk
          rw [← hab.1, hk] at hpc
          rw [hpc] at hc0
          simp at hc0
      | cons a0 as =>
        simp only [List.cons_append, List.cons.injEq] at hab
        exact ⟨as, b, hab.2⟩
    · rw [List.dropWhile_cons_of_neg hpc]
      exact h

/-- A keyword whose first and last characters are not white space occurs in
a string iff it occurs in its trim. -/
lemma inf_trim_iff {k : List Char} {c0 c1 : Char}
    (h0 : k.head? = some c0) (hc0 : isJsSpace c0 = false)
    (h1 : k.getLast? = some c1) (hc1 : isJsSpace c1 = false)
    (l : List Char) : k <:+: trimChars l ↔ k <:+: l := by
  constructor
  · intro h
    exact inf_trans h (trim_inf l)
  · intro h
    have hstep1 : k <:+: l.dropWhile isJsSpace := inf_dropWhile h0 hc0 l h
    have hrev : k.reverse <:+: (l.dropWhile isJsSpace).reverse :=
      List.reverse_infix.mpr hstep1
    have hh : k.reverse.head? = some c1 := by
      rw [List.head?_reverse]
      exact h1
    have hstep2 : k.reverse <:+:
        ((l.dropWhile isJsSpace).reverse).dropWhile isJsSpace :=
      inf_dropWhile hh hc1 _ hrev
    have hfin := List.reverse_infix.mpr hstep2
    simpa using hfin

/-- Both ends of a word are non-space characters. -/
def edgeOK (w : List Char) : Bool :=
  (match w.head? with
   | some c => !isJsSpace c
   | none => false) &&
  (match w.getLast? with
   | some c => !isJsSpace c
   | none => false)

lemma edgeOK_spec {w : List Char} (h : edgeOK w = true) :
    ∃ c0 c1, w.head? = some c0 ∧ isJsSpace c0 = false ∧
      w.getLast? = some c1 ∧ isJsSpace c1 = false := by
  unfold edgeOK at h
  rw [Bool.and_eq_true] at h
  obtain ⟨hh, hl⟩ := h
  cases hw : w.head? with
  | none => rw [hw] at hh; cases hh
  | some c0 =>
    cases hw2 : w.getLast? with
    | none => rw [hw2] at hl; cases hl
    | some c1 =>
      rw [hw] at hh
      rw [hw2] at hl
      exact ⟨c0, c1, rfl, by simpa using hh, rfl, by simpa using hl⟩

/-- Every keyword of the lexicon starts and ends with a non-space
character. -/
lemma categories_edges :
    ∀ p ∈ categories, ∀ kw ∈ p.2, edgeOK kw.data = true := by
  decide

/-- Trimming the name does not change the matched category, because no
lexicon keyword starts or ends with white space. -/
lemma firstCategory_trim :
    ∀ (l : List (String × List String)),
      (∀ p ∈ l, ∀ kw ∈ p.2, edgeOK kw.data = true) →
      ∀ lw : List Char,
        firstCategory l (trimChars lw) = firstCategory l lw := by
  intro l
  induction l with
  | nil => intro _ lw; rfl
  | cons p rest ih =>
    intro hok lw
    obtain ⟨n, its⟩ := p
    have hitem : ∀ kw ∈ its,
        jsIncludes (trimChars lw) kw.data = jsIncludes lw kw.data := by
      intro kw hkw
      obtain ⟨c0, c1, h0, hc0, h1, hc1⟩ :=
        edgeOK_spec (hok (n, its) (List.mem_cons_self _ _) kw hkw)
      unfold jsIncludes
      exact decide_eq_decide.mpr (inf_trim_iff h0 hc0 h1 hc1 lw)
    have hany : (its.any fun item => jsIncludes (trimChars lw) item.data) =
        (its.any fun item => jsIncludes lw item.data) := by
      cases hcase : its.any fun item => jsIncludes lw item.data with
      | true =>
        rw [List.any_eq_true] at hcase ⊢
        obtain ⟨kw, hkw, hj⟩ := hcase
        exact ⟨kw, hkw, by rw [hitem kw hkw]; exact hj⟩
      | false =>
        rw [List.any_eq_false] at hcase ⊢
        intro kw hkw
        rw [hitem kw hkw]
        exact hcase kw hkw
    simp only [firstCategory, hany]
    by_cases hc : (its.any fun item => jsIncludes lw item.data) = true
    · rw [if_pos hc, if_pos hc]
    · rw [if_neg hc, if_neg hc]
      exact ih (fun q hq => hok q (List.mem_cons_of_mem _ hq)) lw

lemma toLower_comp_space : (isJsSpace ∘ Char.toLower) = isJsSpace :=
  funext isJsSpace_toLower

/-- Lower-casing commutes with trimming. -/
lemma map_toLower_trim (w : List Char) :
    (trimChars w).map Char.toLower = trimChars (w.map Char.toLower) := by
  unfold trimChars
  rw [List.dropWhile_map, toLower_comp_space, ← List.map_reverse,
    List.dropWhile_map, toLower_comp_space, ← List.map_reverse]

lemma detectCategory_trim (w : List Char) :
    detectCategory ⟨trimChars w⟩ = detectCategory ⟨w⟩ := by
  show firstCategory categories ((trimChars w).map Char.toLower) =
    firstCategory categories (w.map Char.toLower)
  rw [map_toLower_trim]
  exact firstCategory_trim categories categories_edges (w.map Char.toLower)

/-- Modelled directly on the spec's words (section 4.1): the first category,
in the lexicon's declared order, one of whose keywords is a substring of the
lower-cased product name; `"Other"` when none matches. -/
def inferCategoryFirst (productName : String) : String :=
  ((categories.find? (fun p => p.2.any (fun kw =>
      decide (kw.data <:+: productName.data.map Char.toLower)))).map
    Prod.fst).getD "Other"

lemma firstCategory_eq_find :
    ∀ (l : List (String × List String)) (lw : List Char),
      firstCategory l lw =
        ((l.find? (fun p => p.2.any (fun kw => decide (kw.data <:+: lw)))).map
          Prod.fst).getD "Other" := by
  intro l
  induction l with
  | nil => intro lw; rfl
  | cons p rest ih =>
    intro lw
    obtain ⟨n, its⟩ := p
    by_cases h : (its.any fun kw => decide (kw.data <:+: lw)) = true
    · simp [firstCategory, List.find?, h, jsIncludes]
    · simp [firstCategory, List.find?, h, jsIncludes, ih lw]

/-- The source's `detectCategory` coincides with the spec's description. -/
lemma detectCategory_eq_infer (s : String) :
    detectCategory s = inferCategoryFirst s :=
  firstCategory_eq_find categories (s.data.map Char.toLower)

/-! ### Shape of the parser's results -/

/-- Case analysis on a successful parse: the result comes from the first
pattern that matches the lower-cased input. -/
lemma parse_some_branches {t : String} {r : ProductData}
    (h : parseProductFromText t = some r) :
    (∃ m, reMatch pattern1 (lowerData t) = some m ∧ r = mkResult1 m) ∨
    (reMatch pattern1 (lowerData t) = none ∧
      ∃ m, reMatch pattern2 (lowerData t) = some m ∧ r = mkResult2 m) ∨
    (reMatch pattern1 (lowerData t) = none ∧
      reMatch pattern2 (lowerData t) = none ∧
      ∃ m, reMatch pattern3 (lowerData t) = some m ∧ r = mkResult3 m) := by
  unfold parseProductFromText parseCore at h
  cases h1 : reMatch pattern1 (lowerData t) with
  | some m =>
    rw [h1] at h
    simp only [Option.some.injEq] at h
    exact Or.inl ⟨m, rfl, h.symm⟩
  | none =>
    rw [h1] at h
    cases h2 : reMatch pattern2 (lowerData t) with
    | some m =>
      rw [h2] at h
      simp only [Option.some.injEq] at h
      exact Or.inr (Or.inl ⟨rfl, m, rfl, h.symm⟩)
    | none =>
      rw [h2] at h
      cases h3 : reMatch pattern3 (lowerData t) with
      | some m =>
        rw [h3] at h
        simp only [Option.some.injEq] at h
        exact Or.inr (Or.inr ⟨rfl, rfl, m, rfl, h.symm⟩)
      | none =>
        rw [h3] at h
        cases h

/-- The parser fails exactly when none of the three patterns matches. -/
lemma parse_none_iff (t : String) :
    parseProductFromText t = none ↔
      reMatch pattern1 (lowerData t) = none ∧
      reMatch pattern2 (lowerData t) = none ∧
      reMatch pattern3 (lowerData t) = none := by
  unfold parseProductFromText parseCore
  cases h1 : reMatch pattern1 (lowerData t) with
  | some m => simp
  | none =>
    cases h2 : reMatch pattern2 (lowerData t) with
    | some m => simp
    | none =>
      cases h3 : reMatch pattern3 (lowerData t) with
      | some m => simp
      | none => simp

/-- The ten unit tokens of the patterns' alternation. -/
def unitTokens : List String :=
  ["kg", "gram", "grams", "liter", "litre", "piece", "dozen", "box", "bag",
   "packet"]

/-- Shapes of the four captures of pattern 1: group 1 is a quantity, group 2
a unit token, group 3 the name (an infix of the input), group 4 a non-empty
digit string. -/
lemma caps_shape_p1 {s : List Char} {m : Caps}
    (h : reMatch pattern1 s = some m) :
    (∃ w, lookupCap m 1 = some w ∧ qtyShape w = true) ∧
    (∃ w, lookupCap m 2 = some w ∧ (⟨w⟩ : String) ∈ unitTokens) ∧
    (∃ w, lookupCap m 3 = some w ∧ w <:+: s) ∧
    (∃ w, lookupCap m 4 = some w ∧ w ≠ [] ∧ (∀ c ∈ w, isJsDigit c = true) ∧
      w <:+: s) := by
  refine ⟨?_, ?_, ?_, ?_⟩
  · obtain ⟨w, hw, hinf, r0, hr0, hl⟩ :=
      capOfMand h (show (1 : Nat) ∈ mandGroups pattern1 by decide)
    rw [groupsOf_p1] at hr0
    simp at hr0
    subst hr0
    exact ⟨w, hw, lang_numRE hl⟩
  · obtain ⟨w, hw, hinf, r0, hr0, hl⟩ :=
      capOfMand h (show (2 : Nat) ∈ mandGroups pattern1 by decide)
    rw [groupsOf_p1] at hr0
    simp at hr0
    subst hr0
    exact ⟨w, hw, lang_unitRE hl⟩
  · obtain ⟨w, hw, hinf, r0, hr0, hl⟩ :=
      capOfMand h (show (3 : Nat) ∈ mandGroups pattern1 by decide)
    exact ⟨w, hw, hinf⟩
  · obtain ⟨w, hw, hinf, r0, hr0, hl⟩ :=
      capOfMand h (show (4 : Nat) ∈ mandGroups pattern1 by decide)
    rw [groupsOf_p1] at hr0
    simp at hr0
    subst hr0
    obtain ⟨hne, hdg⟩ := lang_dPlus hl
    exact ⟨w, hw, hne, hdg, hinf⟩

/-- Shapes of the four captures of pattern 2: group 1 is the name, group 2 a
quantity, group 3 a unit token, group 4 a non-empty digit string. -/
lemma caps_shape_p2 {s : List Char} {m : Caps}
    (h : reMatch pattern2 s = some m) :
    (∃ w, lookupCap m 1 = some w ∧ w <:+: s) ∧
    (∃ w, lookupCap m 2 = some w ∧ qtyShape w = true) ∧
    (∃ w, lookupCap m 3 = some w ∧ (⟨w⟩ : String) ∈ unitTokens) ∧
    (∃ w, lookupCap m 4 = some w ∧ w ≠ [] ∧ (∀ c ∈ w, isJsDigit c = true) ∧
      w <:+: s) := by
  refine ⟨?_, ?_, ?_, ?_⟩
  · obtain ⟨w, hw, hinf, r0, hr0, hl⟩ :=
      capOfMand h (show (1 : Nat) ∈ mandGroups pattern2 by decide)
    exact ⟨w, hw, hinf⟩
  · obtain ⟨w, hw, hinf, r0, hr0, hl⟩ :=
      capOfMand h (show (2 : Nat) ∈ mandGroups pattern2 by decide)
    rw [groupsOf_p2] at hr0
    simp at hr0
    subst hr0
    exact ⟨w, hw, lang_numRE hl⟩
  · obtain ⟨w, hw, hinf, r0, hr0, hl⟩ :=
      capOfMand h (show (3 : Nat) ∈ mandGroups pattern2 by decide)
    rw [groupsOf_p2] at hr0
    simp at hr0
    subst hr0
    exact ⟨w, hw, lang_unitRE hl⟩
  · obtain ⟨w, hw, hinf, r0, hr0, hl⟩ :=
      capOfMand h (show (4 : Nat) ∈ mandGroups pattern2 by decide)
    rw [groupsOf_p2] at hr0
    simp at hr0
    subst hr0
    obtain ⟨hne, hdg⟩ := lang_dPlus hl
    exact ⟨w, hw, hne, hdg, hinf⟩

/-- Shapes of the four captures of pattern 3: group 1 is the name, group 2 a
non-empty digit string (the price), group 3 a quantity, group 4 a unit
token. -/
lemma caps_shape_p3 {s : List Char} {m : Caps}
    (h : reMatch pattern3 s = some m) :
    (∃ w, lookupCap m 1 = some w ∧ w <:+: s) ∧
    (∃ w, lookupCap m 2 = some w ∧ w ≠ [] ∧ (∀ c ∈ w, isJsDigit c = true) ∧
      w <:+: s) ∧
    (∃ w, lookupCap m 3 = some w ∧ qtyShape w = true) ∧
    (∃ w, lookupCap m 4 = some w ∧ (⟨w⟩ : String) ∈ unitTokens) := by
  refine ⟨?_, ?_, ?_, ?_⟩
  · obtain ⟨w, hw, hinf, r0, hr0, hl⟩ :=
      capOfMand h (show (1 : Nat) ∈ mandGroups pattern3 by decide)
    exact ⟨w, hw, hinf⟩
  · obtain ⟨w, hw, hinf, r0, hr0, hl⟩ :=
      capOfMand h (show (2 : Nat) ∈ mandGroups pattern3 by decide)
    rw [groupsOf_p3] at hr0
    simp at hr0
    subst hr0
    obtain ⟨hne, hdg⟩ := lang_dPlus hl
    exact ⟨w, hw, hne, hdg, hinf⟩
  · obtain ⟨w, hw, hinf, r0, hr0, hl⟩ :=
      capOfMand h (show (3 : Nat) ∈ mandGroups pattern3 by decide)
    rw [groupsOf_p3] at hr0
    simp at hr0
    subst hr0
    exact ⟨w, hw, lang_numRE hl⟩
  · obtain ⟨w, hw, hinf, r0, hr0, hl⟩ :=
      capOfMand h (show (4 : Nat) ∈ mandGroups pattern3 by decide)
    rw [groupsOf_p3] at hr0
    simp at hr0
    subst hr0
    exact ⟨w, hw, lang_unitRE hl⟩

/-! ### The claims -/

/-- C1 (counterexample): contrary to the claim, the utterance
`"Add 1kg tomatoes for ₹30"` does not parse at all: the price capture is
`(\d+)` and the optional price word alternation has no `₹`, so the rupee
sign blocks every pattern and `parseProductFromText` returns `null`. -/
theorem C1_counterexample :
    parseProductFromText ("Add 1kg tomatoes for ₹30") = none := by
  decide

/-- C1 (amended): without the rupee sign the utterance
`"Add 1kg tomatoes for 30"` parses as the claim describes: quantity `"1"`,
unit `"kg"`, product name `"tomatoes"`, price `"30"`, category
`"Vegetables"`. -/
theorem C1_amended_parse :
    parseProductFromText ("Add 1kg tomatoes for 30") =
      some ⟨"tomatoes", "30", "1", "kg", "Vegetables"⟩ := by
  decide

/-- C2 (counterexample): the parser matches against the lower-cased input
and returns the captured name from that lower-cased text, so for
`"Add 1kg Tomatoes for 30"` the returned product name is `"tomatoes"`,
which is not a substring of the original-case input at all. -/
theorem C2_counterexample :
    parseProductFromText ("Add 1kg Tomatoes for 30") =
      some ⟨"tomatoes", "30", "1", "kg", "Vegetables"⟩ ∧
    ¬ (("tomatoes" : String).data <:+:
        ("Add 1kg Tomatoes for 30" : String).data) := by
  decide

/-- C2 (amended): the parser lower-cases the input for matching and the
product name it returns is the trimmed captured substring of the
lower-cased input (not of the original-case input): the whole result is a
function of the lower-cased text, and on success the returned name is an
infix of the lower-cased input. -/
theorem C2_amended_name_lowercased :
    ∀ t : String,
      parseProductFromText t = parseCore (lowerData t) ∧
      ∀ r : ProductData, parseProductFromText t = some r →
        r.name.data <:+: lowerData t := by
  intro t
  refine ⟨rfl, ?_⟩
  intro r h
  rcases parse_some_branches h with ⟨m, hm, rfl⟩ | ⟨-, m, hm, rfl⟩ |
    ⟨-, -, m, hm, rfl⟩
  · obtain ⟨-, -, ⟨w, hw, hinf⟩, -⟩ := caps_shape_p1 hm
    show trimChars ((lookupCap m 3).getD []) <:+: lowerData t
    rw [hw]
    exact inf_trans (trim_inf w) hinf
  · obtain ⟨⟨w, hw, hinf⟩, -, -, -⟩ := caps_shape_p2 hm
    show trimChars ((lookupCap m 1).getD []) <:+: lowerData t
    rw [hw]
    exact inf_trans (trim_inf w) hinf
  · obtain ⟨⟨w, hw, hinf⟩, -, -, -⟩ := caps_shape_p3 hm
    show trimChars ((lookupCap m 1).getD []) <:+: lowerData t
    rw [hw]
    exact inf_trans (trim_inf w) hinf

/-- Witness for C2 (amended), at the utterance of the counterexample. -/
theorem C2_amended_witness :
    parseProductFromText ("Add 1kg Tomatoes for 30") =
      parseCore (lowerData ("Add 1kg Tomatoes for 30")) ∧
    (⟨"tomatoes", "30", "1", "kg", "Vegetables"⟩ : ProductData).name.data <:+:
      lowerData ("Add 1kg Tomatoes for 30") :=
  ⟨(C2_amended_name_lowercased ("Add 1kg Tomatoes for 30")).1,
   (C2_amended_name_lowercased ("Add 1kg Tomatoes for 30")).2 _ (by decide)⟩

/-- C3: matching is first-match-wins across the three patterns in order:
whenever pattern 1 matches the lower-cased input the parser returns pattern
1's captures, whenever pattern 1 fails and pattern 2 matches it returns
pattern 2's captures, and it falls through to pattern 3 only when both
earlier patterns fail. -/
theorem C3_first_pattern_priority :
    ∀ t : String,
      (∀ m, reMatch pattern1 (lowerData t) = some m →
        parseProductFromText t = some (mkResult1 m)) ∧
      (reMatch pattern1 (lowerData t) = none →
        ∀ m, reMatch pattern2 (lowerData t) = some m →
          parseProductFromText t = some (mkResult2 m)) ∧
      (reMatch pattern1 (lowerData t) = none →
        reMatch pattern2 (lowerData t) = none →
        ∀ m, reMatch pattern3 (lowerData t) = some m →
          parseProductFromText t = some (mkResult3 m)) := by
  intro t
  refine ⟨?_, ?_, ?_⟩
  · intro m hm
    unfold parseProductFromText parseCore
    rw [hm]
  · intro h1 m hm
    unfold parseProductFromText parseCore
    rw [h1, hm]
  · intro h1 h2 m hm
    unfold parseProductFromText parseCore
    rw [h1, h2, hm]

/-- Witness for C3 at `"1kg 2kg 30"`, an utterance matched by both pattern 1
(quantity `"1"`, unit `"kg"`, name `"2kg"`, price `"30"`) and pattern 2
(name `"1kg"`, quantity `"2"`, unit `"kg"`, price `"30"`): the parser
returns pattern 1's captures. -/
theorem C3_witness :
    parseProductFromText ("1kg 2kg 30") =
      some (mkResult1 [(4, ['3', '0']), (3, ['2', 'k', 'g']),
        (2, ['k', 'g']), (1, ['1'])]) ∧
    reMatch pattern2 (lowerData ("1kg 2kg 30")) =
      some [(4, ['3', '0']), (3, ['k', 'g']), (2, ['2']),
        (1, ['1', 'k', 'g'])] :=
  ⟨(C3_first_pattern_priority ("1kg 2kg 30")).1 _ (by decide), by decide⟩

/-- C4 (counterexample): contrary to the claim, the utterance
`"potatoes price 50 rupees per 2kg"` does not parse: in pattern 3 the word
`rupees` can only be consumed by the optional price-word group placed
before the price digits, so the `rupees` sitting between `50` and `per`
blocks pattern 3, and patterns 1 and 2 require the unit right after the
quantity with the price after it, which also fails. -/
theorem C4_counterexample :
    parseProductFromText ("potatoes price 50 rupees per 2kg") = none := by
  decide

/-- C4 (amended): without the word `rupees`, the utterance
`"potatoes price 50 per 2kg"` is matched by pattern 3 (patterns 1 and 2
fail on it) and yields quantity `"2"`, unit `"kg"`, product name
`"potatoes"`, price `"50"`, category `"Vegetables"`. -/
theorem C4_amended_parse :
    reMatch pattern1 (lowerData ("potatoes price 50 per 2kg")) = none ∧
    reMatch pattern2 (lowerData ("potatoes price 50 per 2kg")) = none ∧
    parseProductFromText ("potatoes price 50 per 2kg") =
      some ⟨"potatoes", "50", "2", "kg", "Vegetables"⟩ := by
  decide

/-- C5 (counterexample): the source never checks the captured name for
emptiness; on `"1kg   30"` pattern 1 matches with the name group capturing
a single space, so the parser returns a record whose product name is empty
after trimming. -/
theorem C5_counterexample :
    parseProductFromText ("1kg   30") =
      some ⟨"", "30", "1", "kg", "Other"⟩ := by
  decide

/-- C5 (amended): the parser returns a failure exactly when none of the
three patterns matches the lower-cased input; when a pattern matches it
always returns a record, even one whose captured product name is empty
after trimming. -/
theorem C5_amended_fail_iff_no_match :
    ∀ t : String,
      parseProductFromText t = none ↔
        (reMatch pattern1 (lowerData t) = none ∧
         reMatch pattern2 (lowerData t) = none ∧
         reMatch pattern3 (lowerData t) = none) :=
  parse_none_iff

/-- C6: on every successful parse the returned category is the first
category, in the lexicon's declared order, whose keyword set contains a
substring of the lower-cased product name, defaulting to `"Other"`; in
particular `detectCategory "basmati rice" = "Grains"` and
`detectCategory "xyz-unknown-item" = "Other"`. -/
theorem C6_category_first_match :
    (∀ (t : String) (r : ProductData), parseProductFromText t = some r →
      r.category = inferCategoryFirst r.name) ∧
    detectCategory ("basmati rice") = "Grains" ∧
    detectCategory ("xyz-unknown-item") = "Other" := by
  refine ⟨?_, by decide, by decide⟩
  intro t r h
  rcases parse_some_branches h with ⟨m, hm, rfl⟩ | ⟨-, m, hm, rfl⟩ |
    ⟨-, -, m, hm, rfl⟩
  · show detectCategory ⟨(lookupCap m 3).getD []⟩ =
      inferCategoryFirst ⟨trimChars ((lookupCap m 3).getD [])⟩
    rw [← detectCategory_eq_infer]
    exact (detectCategory_trim _).symm
  · show detectCategory ⟨(lookupCap m 1).getD []⟩ =
      inferCategoryFirst ⟨trimChars ((lookupCap m 1).getD [])⟩
    rw [← detectCategory_eq_infer]
    exact (detectCategory_trim _).symm
  · show detectCategory ⟨(lookupCap m 1).getD []⟩ =
      inferCategoryFirst ⟨trimChars ((lookupCap m 1).getD [])⟩
    rw [← detectCategory_eq_infer]
    exact (detectCategory_trim _).symm

/-- Witness for C6 at `"add 1kg tomatoes 30 rupees"`. -/
theorem C6_witness :
    (⟨"tomatoes", "30", "1", "kg", "Vegetables"⟩ : ProductData).category =
      inferCategoryFirst
        (⟨"tomatoes", "30", "1", "kg", "Vegetables"⟩ : ProductData).name :=
  C6_category_first_match.1 ("add 1kg tomatoes 30 rupees") _ (by decide)

/-- C7 (counterexample): the keyword sets are not pairwise disjoint: the
keyword `"pepper"` appears both under `"Vegetables"` and under
`"Spices"`. -/
theorem C7_counterexample :
    (categories.get ⟨0, by decide⟩).1 = "Vegetables" ∧
    (categories.get ⟨5, by decide⟩).1 = "Spices" ∧
    "pepper" ∈ (categories.get ⟨0, by decide⟩).2 ∧
    "pepper" ∈ (categories.get ⟨5, by decide⟩).2 := by
  decide

/-- C7 (amended): `"pepper"` shared by `"Vegetables"` and `"Spices"` is the
only violation of disjointness: any keyword occurring in two distinct
categories is `"pepper"`, in exactly those two. -/
theorem C7_amended_disjoint_except_pepper :
    ∀ p ∈ categories, ∀ q ∈ categories, ∀ kw ∈ p.2,
      p.1 ≠ q.1 → kw ∈ q.2 →
      kw = "pepper" ∧ ((p.1 = "Vegetables" ∧ q.1 = "Spices") ∨
        (p.1 = "Spices" ∧ q.1 = "Vegetables")) := by
  decide

/-- Witness for C7 (amended) at the two categories sharing `"pepper"`. -/
theorem C7_amended_witness :
    ("pepper" : String) = "pepper" ∧
    ((("Vegetables" : String) = "Vegetables" ∧
        ("Spices" : String) = "Spices") ∨
      (("Vegetables" : String) = "Spices" ∧
        ("Spices" : String) = "Vegetables")) :=
  C7_amended_disjoint_except_pepper
    ("Vegetables", ["tomato", "potato", "onion", "carrot", "cabbage",
      "spinach", "lettuce", "cucumber", "pepper", "brinjal", "okra"])
    (by decide)
    ("Spices", ["turmeric", "chili", "cumin", "coriander", "garam masala",
      "pepper"])
    (by decide) "pepper" (by decide) (by decide) (by decide)

/-- C8: the empty utterance and every white-space-only utterance fail to
parse: every pattern must match a price made of at least one digit, the
captured digits are an infix of the lower-cased input, and lower-casing
maps white space to white space, so a space-only input admits no match. -/
theorem C8_whitespace_fails :
    parseProductFromText "" = none ∧
    ∀ s : String, (∀ c ∈ s.data, isJsSpace c = true) →
      parseProductFromText s = none := by
  refine ⟨by decide, ?_⟩
  intro s hs
  cases hp : parseProductFromText s with
  | none => rfl
  | some r =>
    exfalso
    have hdig : ∃ c ∈ lowerData s, isJsDigit c = true := by
      rcases parse_some_branches hp with ⟨m, hm, -⟩ | ⟨-, m, hm, -⟩ |
        ⟨-, -, m, hm, -⟩
      · obtain ⟨-, -, -, w, hw, hne, hdg, hinf⟩ := caps_shape_p1 hm
        cases w with
        | nil => exact absurd rfl hne
        | cons c ws =>
          obtain ⟨a, b, hab⟩ := hinf
          exact ⟨c, by rw [← hab]; simp, hdg c (by simp)⟩
      · obtain ⟨-, -, -, w, hw, hne, hdg, hinf⟩ := caps_shape_p2 hm
        cases w with
        | nil => exact absurd rfl hne
        | cons c ws =>
          obtain ⟨a, b, hab⟩ := hinf
          exact ⟨c, by rw [← hab]; simp, hdg c (by simp)⟩
      · obtain ⟨-, ⟨w, hw, hne, hdg, hinf⟩, -, -⟩ := caps_shape_p3 hm
        cases w with
        | nil => exact absurd rfl hne
        | cons c ws =>
          obtain ⟨a, b, hab⟩ := hinf
          exact ⟨c, by rw [← hab]; simp, hdg c (by simp)⟩
    obtain ⟨c, hcmem, hcdig⟩ := hdig
    obtain ⟨c0, hc0mem, rfl⟩ := List.mem_map.mp hcmem
    have hsp := hs c0 hc0mem
    rw [toLower_space hsp] at hcdig
    exact digit_not_space hcdig hsp

/-- Witness for C8 at the three-space utterance. -/
theorem C8_witness : parseProductFromText ("   ") = none :=
  C8_whitespace_fails.2 ("   ") (by decide)

/-- C9: the parser is deterministic and stateless: it is a pure function of
its input string (the embedding threads no state), so two invocations on
the same utterance return identical results. -/
theorem C9_deterministic :
    ∀ t1 t2 : String, t1 = t2 →
      parseProductFromText t1 = parseProductFromText t2 := by
  intro t1 t2 h
  rw [h]

/-- Witness for C9. -/
theorem C9_witness :
    parseProductFromText ("add 1kg rice 30") =
      parseProductFromText ("add 1kg rice 30") :=
  C9_deterministic ("add 1kg rice 30") ("add 1kg rice 30") rfl

/-- C10: on every successful parse the price is a non-empty string of
decimal digits, the quantity has the shape `\d+(\.\d+)?`, and the unit is
one of the ten tokens of the alternation; moreover a fractional price in
the input is truncated at the dot: `"add 1kg rice for 30.5"` yields price
`"30"`. -/
theorem C10_capture_shapes :
    (∀ (t : String) (r : ProductData), parseProductFromText t = some r →
      r.price.data ≠ [] ∧ (∀ c ∈ r.price.data, isJsDigit c = true) ∧
      qtyShape r.quantity.data = true ∧ r.unit ∈ unitTokens) ∧
    parseProductFromText ("add 1kg rice for 30.5") =
      some ⟨"rice", "30", "1", "kg", "Grains"⟩ := by
  refine ⟨?_, by decide⟩
  intro t r h
  rcases parse_some_branches h with ⟨m, hm, rfl⟩ | ⟨-, m, hm, rfl⟩ |
    ⟨-, -, m, hm, rfl⟩
  · obtain ⟨⟨w1, hw1, hq⟩, ⟨w2, hw2, hu⟩, -, w4, hw4, hne, hdg, -⟩ :=
      caps_shape_p1 hm
    refine ⟨?_, ?_, ?_, ?_⟩
    · show (lookupCap m 4).getD [] ≠ []
      rw [hw4]
      simpa using hne
    · show ∀ c ∈ (lookupCap m 4).getD [], isJsDigit c = true
      rw [hw4]
      simpa using hdg
    · show qtyShape ((lookupCap m 1).getD []) = true
      rw [hw1]
      simpa using hq
    · show (⟨(lookupCap m 2).getD []⟩ : String) ∈ unitTokens
      rw [hw2]
      simpa using hu
  · obtain ⟨-, ⟨w2, hw2, hq⟩, ⟨w3, hw3, hu⟩, w4, hw4, hne, hdg, -⟩ :=
      caps_shape_p2 hm
    refine ⟨?_, ?_, ?_, ?_⟩
    · show (lookupCap m 4).getD [] ≠ []
      rw [hw4]
      simpa using hne
    · show ∀ c ∈ (lookupCap m 4).getD [], isJsDigit c = true
      rw [hw4]
      simpa using hdg
    · show qtyShape ((lookupCap m 2).getD []) = true
      rw [hw2]
      simpa using hq
    · show (⟨(lookupCap m 3).getD []⟩ : String) ∈ unitTokens
      rw [hw3]
      simpa using hu
  · obtain ⟨-, ⟨w2, hw2, hne, hdg, -⟩, ⟨w3, hw3, hq⟩, w4, hw4, hu⟩ :=
      caps_shape_p3 hm
    refine ⟨?_, ?_, ?_, ?_⟩
    · show (lookupCap m 2).getD [] ≠ []
      rw [hw2]
      simpa using hne
    · show ∀ c ∈ (lookupCap m 2).getD [], isJsDigit c = true
      rw [hw2]
      simpa using hdg
    · show qtyShape ((lookupCap m 3).getD []) = true
      rw [hw3]
      simpa using hq
    · show (⟨(lookupCap m 4).getD []⟩ : String) ∈ unitTokens
      rw [hw4]
      simpa using hu

/-- Witness for C10 at `"add 1kg tomatoes 30 rupees"`. -/
theorem C10_witness :
    (⟨"tomatoes", "30", "1", "kg", "Vegetables"⟩ : ProductData).price.data ≠ [] ∧
    (∀ c ∈ (⟨"tomatoes", "30", "1", "kg", "Vegetables"⟩ : ProductData).price.data,
      isJsDigit c = true) ∧
    qtyShape (⟨"tomatoes", "30", "1", "kg", "Vegetables"⟩ : ProductData).quantity.data = true ∧
    (⟨"tomatoes", "30", "1", "kg", "Vegetables"⟩ : ProductData).unit ∈ unitTokens :=
  C10_capture_shapes.1 ("add 1kg tomatoes 30 rupees") _ (by decide)

